import Mathlib

/-!
Verification of `duim.py` (a du-based disk-usage reporter) against its
natural-language specification.

The Python source is shallowly embedded as executable Lean definitions:

* Python `float` values that arise in this program are exact binary
  rationals for every input the claims quantify over (they are produced
  from machine integers by `/`, `*` and literal constants), so they are
  embedded as exact unnormalised integer fractions (`PyRat`).  All `PyRat`
  operations are kernel-computable; bridge lemmas relate them to `ℚ`.
* Python exceptions are embedded as an `Except PyError` result: an
  uncaught exception aborts the run (the interpreter exits with code 1).
* Python strings are Lean `String`s, built only with kernel-computable
  operations (`String.mk`, `++`, `toString` on integers).
-/

/-- Exceptions that the embedded fragments of `duim.py` can raise. -/
inductive PyError : Type where
  | valueError : PyError
  | zeroDivisionError : PyError
  | keyError : PyError
  | indexError : PyError
deriving DecidableEq, Repr

/-- Exact rational number represented as an unnormalised fraction of
integers.  This embeds the Python `float` values occurring in `duim.py`
(which are exact for all inputs the claims range over).  The invariant
`0 < den` is maintained by the operations below (stated as a hypothesis
in lemmas rather than carried in the structure, to keep the operations
kernel-computable). -/
structure PyRat : Type where
  num : ℤ
  den : ℤ
deriving DecidableEq, Repr

namespace PyRat

/-- Embedding of a Python integer into a float (`float(n)` or an
int operand of a float operation). -/
def ofInt (n : ℤ) : PyRat := ⟨n, 1⟩

/-- Python float multiplication (exact). -/
def mul (a b : PyRat) : PyRat := ⟨a.num * b.num, a.den * b.den⟩

/-- Python float true division (exact); the sign is normalised into the
numerator so that the denominator stays positive. -/
def div (a b : PyRat) : PyRat :=
  let n := a.num * b.den
  let d := a.den * b.num
  if d < 0 then ⟨-n, -d⟩ else ⟨n, d⟩

/-- Python float comparison `a <= b`; valid when both denominators are
positive. -/
def leB (a b : PyRat) : Bool := a.num * b.den ≤ b.num * a.den

/-- Mathematical floor of the represented value (denominator positive);
`Int` division in Lean with a positive divisor is floor division. -/
def floor (a : PyRat) : ℤ := a.num / a.den

/-- Python `round(x)` (round half to even) of the represented value,
valid when the denominator is positive.  `r2` is twice the fractional
part, scaled by the denominator. -/
def roundHE (a : PyRat) : ℤ :=
  let f := a.floor
  let r2 := 2 * (a.num - f * a.den)
  if r2 < a.den then f
  else if a.den < r2 then f + 1
  else if f % 2 = 0 then f else f + 1

/-- Value of a `PyRat` as a rational number. -/
def toQ (a : PyRat) : ℚ := (a.num : ℚ) / (a.den : ℚ)

end PyRat

/-- Round half to even on rationals: the mathematical description of
Python `round` used to state the bar-filling claims. -/
def roundHalfEven (q : ℚ) : ℤ :=
  if q - ⌊q⌋ < 1/2 then ⌊q⌋
  else if (1:ℚ)/2 < q - ⌊q⌋ then ⌊q⌋ + 1
  else if ⌊q⌋ % 2 = 0 then ⌊q⌋ else ⌊q⌋ + 1

/-!
String utilities modelling the Python string operations the source uses.
Python `str.split('\n')`, `str.split()`, `' '.join`, `str(int)` and
f-string width/justification specifiers are embedded as structural
recursions over `List Char`, so that every pipeline step is
kernel-computable.
-/

/-- Python `s.split(sep)` for a single-character separator: splits on
every occurrence, keeping empty pieces (`"a\n\nb"` gives three pieces). -/
def splitSep (sep : Char) : List Char → List (List Char)
  | [] => [[]]
  | c :: rest =>
    match splitSep sep rest with
    | [] => if c = sep then [[], []] else [[c]]
    | g :: gs => if c = sep then [] :: g :: gs else (c :: g) :: gs

/-- Accumulator version of Python `s.split()` (split on whitespace runs,
no empty tokens); `cur` is the current token, reversed. -/
def pyTokensAux : List Char → List Char → List (List Char)
  | cur, [] => if cur.isEmpty then [] else [cur.reverse]
  | cur, c :: rest =>
    if c.isWhitespace then
      if cur.isEmpty then pyTokensAux [] rest
      else cur.reverse :: pyTokensAux [] rest
    else pyTokensAux (c :: cur) rest

/-- Python `line.split()`: whitespace-separated tokens, empties dropped. -/
def pySplit (s : String) : List String :=
  (pyTokensAux [] s.toList).map (fun l => String.mk l)

/-- Python `' '.join(parts)`. -/
def joinSpace : List String → String
  | [] => ""
  | [x] => x
  | x :: y :: rest => x ++ " " ++ joinSpace (y :: rest)

/-- Digit-sequence grammar accepted by Python `int(str)` after the sign:
nonempty decimal digits with single underscores allowed between digits.
The `Bool` flag records whether a digit is currently required (at the
start and after every underscore). -/
def pyDigitsAux : Bool → List Char → Bool
  | true, [] => false
  | false, [] => true
  | true, c :: cs => c.isDigit && pyDigitsAux false cs
  | false, c :: cs =>
    if c = '_' then pyDigitsAux true cs
    else c.isDigit && pyDigitsAux false cs

/-- Numeric value of a digit sequence, skipping underscores. -/
def pyDigitsVal (cs : List Char) : ℕ :=
  cs.foldl (fun acc c => if c = '_' then acc else acc * 10 + (c.toNat - 48)) 0

/-- Python `int(token)` for a token without surrounding whitespace (the
tokens come from `str.split()`, which strips it): an optional sign
followed by underscore-grouped decimal digits; anything else raises
`ValueError`, embedded as `none`. -/
def pyIntParse (s : String) : Option ℤ :=
  match s.toList with
  | '+' :: rest => if pyDigitsAux true rest then some (pyDigitsVal rest : ℤ) else none
  | '-' :: rest => if pyDigitsAux true rest then some (-(pyDigitsVal rest : ℤ)) else none
  | rest => if pyDigitsAux true rest then some (pyDigitsVal rest : ℤ) else none

/-- Python f-string right justification to a minimum width (`{x:3}`
style), padding with spaces. -/
def rjust (w : ℕ) (s : String) : String :=
  if s.length < w then String.mk (List.replicate (w - s.length) ' ') ++ s else s

/-- Python f-string left justification to a minimum width (`{s:8}`
style for strings), padding with spaces. -/
def ljust (w : ℕ) (s : String) : String :=
  if s.length < w then s ++ String.mk (List.replicate (w - s.length) ' ') else s

/-- Python `dict` assignment `d[k] = v`: an existing key keeps its
position (first-encounter order) and gets the new value; a new key is
appended.  The snapshot is the insertion-ordered association list. -/
def pyDictInsert (d : List (String × ℤ)) (k : String) (v : ℤ) : List (String × ℤ) :=
  if d.any (fun e => e.1 = k) then d.map (fun e => if e.1 = k then (k, v) else e)
  else d ++ [(k, v)]

/-- Python `d[k]` / `k in d` support: first (unique) binding of `k`. -/
def pyLookup (d : List (String × ℤ)) (k : String) : Option ℤ :=
  (d.find? (fun e => e.1 = k)).map (fun e => e.2)

/-- Monadic map over `Except`, modelling a Python `for` loop that
appends one result per element and aborts at the first exception. -/
def exceptMapM {α β : Type} (f : α → Except PyError β) : List α → Except PyError (List β)
  | [] => Except.ok []
  | x :: xs => do
    let y ← f x
    let ys ← exceptMapM f xs
    pure (y :: ys)

/-- Tests whether an `Except` computation succeeded. -/
def exceptIsOk {ε α : Type} : Except ε α → Bool
  | Except.ok _ => true
  | Except.error _ => false

/-!
Embedding of duim.py itself.
-/

/-- Option arguments `duim.py` passes to `du` (`call_du_sub`, line 89):
`-d 1`, depth one.  No other option is passed. -/
def du_flags : List String := ["-d", "1"]

/-- Full argument vector of the `subprocess.Popen` call in
`call_du_sub`: `['du', '-d', '1', location]`. -/
def du_args (location : String) : List String := ["du"] ++ du_flags ++ [location]

/-- Embedding of `call_du_sub` (duim.py lines 78-99).  The external `du`
process is an environment input, given here by its exit code and
captured standard output.  The source reads only `stdout` from
`process.communicate()`: it splits it on newlines and drops empty
strings; the exit code (and stderr) of the subprocess are never
inspected. -/
def call_du_sub (exitCode : ℤ) (stdout : String) : List String :=
  ((splitSep '\n' stdout.toList).map (fun l => String.mk l)).filter (fun s => s ≠ "")

/-- Loop body of `create_dir_dict` (duim.py lines 113-126), carrying the
dictionary built so far.  A line with fewer than two whitespace tokens
is skipped; otherwise `int(parts[0])` is taken as the size (raising
`ValueError` for a non-numeric token, which aborts the whole call) and
`' '.join(parts[1:])` as the path. -/
def create_dir_dict_aux (d : List (String × ℤ)) :
    List String → Except PyError (List (String × ℤ))
  | [] => Except.ok d
  | line :: rest =>
    let parts := pySplit line
    if parts.length < 2 then create_dir_dict_aux d rest
    else
      match pyIntParse (parts.headD "") with
      | none => Except.error PyError.valueError
      | some size => create_dir_dict_aux (pyDictInsert d (joinSpace (parts.drop 1)) size) rest

/-- Embedding of `create_dir_dict` (duim.py lines 102-126). -/
def create_dir_dict (alist : List String) : Except PyError (List (String × ℤ)) :=
  create_dir_dict_aux [] alist

/-- Unit letters of `human_readable_size` (duim.py line 139). -/
def duUnits : List String := ["B", "K", "M", "G", "T", "P"]

/-- While loop of `human_readable_size` (duim.py lines 144-146): divide
by 1024 while `size >= 1024 and index < len(units) - 1`.  The loop runs
at most five times (the index bound), so fuel 5 starting from index 0 is
exact. -/
def hrLoopAux : ℕ → PyRat → ℕ → PyRat × ℕ
  | 0, size, index => (size, index)
  | fuel + 1, size, index =>
    if (PyRat.ofInt 1024).leB size ∧ index < 5 then
      hrLoopAux fuel (size.div (PyRat.ofInt 1024)) (index + 1)
    else (size, index)

/-- Python `f"{size:.1f}"` for a nonnegative value: round half to even
at one fractional digit and print `intpart.digit`. -/
def pyFormatOneDecNN (q : PyRat) : String :=
  let n := (q.mul (PyRat.ofInt 10)).roundHE
  toString (n / 10) ++ "." ++ toString (n % 10)

/-- Python `f"{size:.1f}"`, sign handled separately (a negative value
keeps its sign, as in Python, where even `-0.0` prints a sign). -/
def pyFormatOneDec (q : PyRat) : String :=
  if q.num < 0 then "-" ++ pyFormatOneDecNN ⟨-q.num, q.den⟩ else pyFormatOneDecNN q

/-- Embedding of `human_readable_size` (duim.py lines 129-149). -/
def human_readable_size (size_bytes : ℤ) : String :=
  let r := hrLoopAux 5 (PyRat.ofInt size_bytes) 0
  pyFormatOneDec r.1 ++ " " ++ duUnits.getD r.2 ""

/-- Embedding of `percent_to_graph` (duim.py lines 54-75): raise
`ValueError` unless `0 <= percent <= 100`, else emit
`'=' * round(percent * total_chars / 100)` padded with spaces to
`total_chars` characters (Python `'c' * n` is empty for negative `n`,
hence `Int.toNat`). -/
def percent_to_graph (percent : PyRat) (total_chars : ℤ) : Except PyError String :=
  if ¬((PyRat.ofInt 0).leB percent ∧ percent.leB (PyRat.ofInt 100)) then
    Except.error PyError.valueError
  else
    let filled_chars := ((percent.mul (PyRat.ofInt total_chars)).div (PyRat.ofInt 100)).roundHE
    Except.ok (String.mk (List.replicate filled_chars.toNat '=' ++
      List.replicate (total_chars - filled_chars).toNat ' '))

/-- Stable descending insertion by size: an element is placed after
every strictly larger element and before equal ones that occur later in
the original list.  This is the behaviour of Python
`sorted(d.items(), key=lambda x: x[1], reverse=True)`, which is a
stable sort. -/
def insertDesc (x : String × ℤ) : List (String × ℤ) → List (String × ℤ)
  | [] => [x]
  | y :: ys => if x.2 < y.2 then y :: insertDesc x ys else x :: y :: ys

/-- Stable descending sort by size (duim.py line 164). -/
def pySortDesc : List (String × ℤ) → List (String × ℤ)
  | [] => []
  | x :: xs => insertDesc x (pySortDesc xs)

/-- Entries the per-entry loop of `print_directory_info` iterates over
after the `continue` for the target (duim.py lines 167-169): the sorted
snapshot minus every entry whose path equals `target_dir`. -/
def report_entries (dir_dict : List (String × ℤ)) (target_dir : String) :
    List (String × ℤ) :=
  (pySortDesc dir_dict).filter (fun e => e.1 ≠ target_dir)

/-- One iteration of the printing loop (duim.py lines 171-184):
`percent = (size / total_size) * 100` (Python raises
`ZeroDivisionError` when `total_size == 0`), then the bar, then the
formatted size, assembled as `f"{percent:3.0f} % [{bar}] {size_str:8} {dir_path}"`. -/
def render_entry (total_size : ℤ) (human_readable : Bool) (bar_length : ℤ)
    (e : String × ℤ) : Except PyError String := do
  let percent ← if total_size = 0 then Except.error PyError.zeroDivisionError
    else pure (((PyRat.ofInt e.2).div (PyRat.ofInt total_size)).mul (PyRat.ofInt 100))
  let bar ← percent_to_graph percent bar_length
  let size_str := if human_readable then human_readable_size e.2 else toString e.2
  pure (rjust 3 (toString percent.roundHE) ++ " % [" ++ bar ++ "] " ++
    ljust 8 size_str ++ " " ++ e.1)

/-- Embedding of `print_directory_info` (duim.py lines 152-192),
returning the printed lines (per-entry lines, then the total line). -/
def print_directory_info (dir_dict : List (String × ℤ)) (total_size : ℤ)
    (target_dir : String) (human_readable : Bool) (bar_length : ℤ) :
    Except PyError (List String) := do
  let lines ← exceptMapM (render_entry total_size human_readable bar_length)
    (report_entries dir_dict target_dir)
  let total_str := if human_readable then human_readable_size total_size
    else toString total_size
  pure (lines ++ ["Total: " ++ total_str ++ "   " ++ target_dir])

/-- Total-path recovery in `main` (duim.py lines 208-212): keep the
user target if it is a key of the dictionary, otherwise re-derive the
path from the last output line (`du_output[-1]`, raising `IndexError`
on an empty list). -/
def resolve_target (du_output : List String) (d : List (String × ℤ))
    (target : String) : Except PyError String :=
  if (pyLookup d target).isSome then Except.ok target
  else
    match du_output.getLast? with
    | none => Except.error PyError.indexError
    | some last => Except.ok (joinSpace ((pySplit last).drop 1))

/-- The processing pipeline of `main` after the `os.path.isdir` check
(duim.py lines 204-218), parameterised by the du subprocess outcome.
An `Except.error` models an uncaught Python exception, which makes the
interpreter exit with code 1. -/
def run_report (exitCode : ℤ) (stdout : String) (target : String)
    (human_readable : Bool) (bar_length : ℤ) : Except PyError (List String) := do
  let du_output := call_du_sub exitCode stdout
  let dir_dict ← create_dir_dict du_output
  let target_dir ← resolve_target du_output dir_dict target
  let total_size ← match pyLookup dir_dict target_dir with
    | some v => pure v
    | none => Except.error PyError.keyError
  print_directory_info dir_dict total_size target_dir human_readable bar_length

/-- Modelled from the spec (§6, "arguments requesting depth-1
byte-granular sizes"): an argument vector requests byte-granularity
sizes iff it passes one of du's byte-size flags.  This definition
follows the spec's words and exists only to state C4 about the argument
vector the source builds. -/
def requestsByteGranularity (args : List String) : Prop :=
  "-b" ∈ args ∨ "--bytes" ∈ args ∨ "--block-size=1" ∈ args ∨ "--apparent-size" ∈ args

/-- Origin of a snapshot entry: the given line has at least two
whitespace tokens, its first token parses (Python `int`) to exactly the
stored size, and the stored path is the remaining tokens rejoined with
single spaces. -/
def lineYields (line : String) (e : String × ℤ) : Prop :=
  2 ≤ (pySplit line).length ∧
  pyIntParse ((pySplit line).headD "") = some e.2 ∧
  e.1 = joinSpace ((pySplit line).drop 1)

/-!
Supporting lemmas and claim theorems.
-/

namespace PyRat

@[simp]
theorem toQ_ofInt (n : ℤ) : (ofInt n).toQ = (n : ℚ) := by
  simp [ofInt, toQ]

@[simp]
theorem den_ofInt (n : ℤ) : (ofInt n).den = 1 := rfl

@[simp]
theorem num_ofInt (n : ℤ) : (ofInt n).num = n := rfl

theorem den_mul_pos {a b : PyRat} (ha : 0 < a.den) (hb : 0 < b.den) :
    0 < (a.mul b).den := mul_pos ha hb

theorem den_div_pos {a b : PyRat} (ha : 0 < a.den) (hb : b.num ≠ 0) :
    0 < (a.div b).den := by
  unfold div
  by_cases h : a.den * b.num < 0
  · simp only [h, if_true]
    omega
  · simp only [h, if_false]
    have : a.den * b.num ≠ 0 := mul_ne_zero (by omega) hb
    omega

theorem toQ_mul (a b : PyRat) : (a.mul b).toQ = a.toQ * b.toQ := by
  simp only [mul, toQ]
  push_cast
  rw [div_mul_div_comm]

theorem toQ_div (a b : PyRat) : (a.div b).toQ = a.toQ / b.toQ := by
  simp only [div, toQ]
  have key : ((a.num * b.den : ℤ) : ℚ) / ((a.den * b.num : ℤ) : ℚ) =
      (a.num : ℚ) / (a.den : ℚ) / ((b.num : ℚ) / (b.den : ℚ)) := by
    rw [div_div_eq_mul_div, div_mul_eq_mul_div, div_div]
    push_cast
    ring_nf
  by_cases h : a.den * b.num < 0
  · simp only [h, if_true]
    rw [← key]
    push_cast
    rw [neg_div_neg_eq]
  · simp only [h, if_false]
    exact key

theorem leB_iff {a b : PyRat} (ha : 0 < a.den) (hb : 0 < b.den) :
    a.leB b = true ↔ a.toQ ≤ b.toQ := by
  have ha' : (0 : ℚ) < (a.den : ℚ) := by exact_mod_cast ha
  have hb' : (0 : ℚ) < (b.den : ℚ) := by exact_mod_cast hb
  rw [leB, decide_eq_true_eq, toQ, toQ, div_le_div_iff ha' hb']
  constructor
  · intro h; exact_mod_cast h
  · intro h; exact_mod_cast h

theorem floor_eq {a : PyRat} (ha : 0 < a.den) : a.floor = ⌊a.toQ⌋ := by
  have h1 : a.den = ((a.den.toNat : ℕ) : ℤ) := (Int.toNat_of_nonneg ha.le).symm
  rw [floor, toQ, h1]
  exact (Rat.floor_intCast_div_natCast a.num a.den.toNat).symm

end PyRat

theorem PyRat.roundHE_eq {a : PyRat} (ha : 0 < a.den) :
    a.roundHE = roundHalfEven a.toQ := by
  have hfl : a.floor = ⌊a.toQ⌋ := PyRat.floor_eq ha
  have haq : (0 : ℚ) < (a.den : ℚ) := by exact_mod_cast ha
  have hfrac : a.toQ - (a.floor : ℚ) = ((a.num - a.floor * a.den : ℤ) : ℚ) / (a.den : ℚ) := by
    rw [PyRat.toQ]
    field_simp
    ring
  have h1 : (2 * (a.num - a.floor * a.den) < a.den) ↔ (a.toQ - (a.floor : ℚ) < 1/2) := by
    rw [hfrac, div_lt_div_iff haq (by norm_num : (0:ℚ) < 2)]
    constructor
    · intro h
      have h' : ((2 * (a.num - a.floor * a.den) : ℤ) : ℚ) < (a.den : ℚ) := by exact_mod_cast h
      push_cast at h' ⊢
      linarith
    · intro h
      have h' : ((2 * (a.num - a.floor * a.den) : ℤ) : ℚ) < (a.den : ℚ) := by
        push_cast
        push_cast at h
        linarith
      exact_mod_cast h'
  have h2 : (a.den < 2 * (a.num - a.floor * a.den)) ↔ ((1:ℚ)/2 < a.toQ - (a.floor : ℚ)) := by
    rw [hfrac, div_lt_div_iff (by norm_num : (0:ℚ) < 2) haq]
    constructor
    · intro h
      have h' : (a.den : ℚ) < ((2 * (a.num - a.floor * a.den) : ℤ) : ℚ) := by exact_mod_cast h
      push_cast at h' ⊢
      linarith
    · intro h
      have h' : (a.den : ℚ) < ((2 * (a.num - a.floor * a.den) : ℤ) : ℚ) := by
        push_cast
        push_cast at h
        linarith
      exact_mod_cast h'
  rw [PyRat.roundHE, roundHalfEven, ← hfl]
  by_cases hc1 : 2 * (a.num - a.floor * a.den) < a.den
  · rw [if_pos hc1, if_pos (h1.mp hc1)]
  · have hn1 : ¬(a.toQ - (a.floor : ℚ) < 1/2) := by rw [← h1]; exact hc1
    by_cases hc2 : a.den < 2 * (a.num - a.floor * a.den)
    · rw [if_neg hc1, if_pos hc2, if_neg hn1, if_pos (h2.mp hc2)]
    · have hn2 : ¬((1:ℚ)/2 < a.toQ - (a.floor : ℚ)) := by rw [← h2]; exact hc2
      rw [if_neg hc1, if_neg hc2, if_neg hn1, if_neg hn2]

/-!
Supporting lemmas.
-/

theorem stringToList_mk (l : List Char) : (String.mk l).toList = l := rfl

theorem insertDesc_perm (x : String × ℤ) (l : List (String × ℤ)) :
    (insertDesc x l).Perm (x :: l) := by
  induction l with
  | nil => simp [insertDesc]
  | cons y ys ih =>
    rw [insertDesc]
    by_cases h : x.2 < y.2
    · rw [if_pos h]
      exact (ih.cons y).trans (List.Perm.swap x y ys)
    · rw [if_neg h]

theorem pySortDesc_perm (l : List (String × ℤ)) : (pySortDesc l).Perm l := by
  induction l with
  | nil => simp [pySortDesc]
  | cons x xs ih =>
    rw [pySortDesc]
    exact (insertDesc_perm x (pySortDesc xs)).trans (ih.cons x)

theorem insertDesc_sorted (x : String × ℤ) {l : List (String × ℤ)}
    (hl : l.Pairwise (fun a b => b.2 ≤ a.2)) :
    (insertDesc x l).Pairwise (fun a b => b.2 ≤ a.2) := by
  induction l with
  | nil => simp [insertDesc]
  | cons y ys ih =>
    rw [insertDesc]
    rw [List.pairwise_cons] at hl
    by_cases h : x.2 < y.2
    · rw [if_pos h]
      rw [List.pairwise_cons]
      refine ⟨?_, ih hl.2⟩
      intro z hz
      have hz' := (insertDesc_perm x ys).mem_iff.mp hz
      rcases List.mem_cons.mp hz' with rfl | hz''
      · exact h.le
      · exact hl.1 z hz''
    · rw [if_neg h]
      rw [List.pairwise_cons]
      refine ⟨?_, List.pairwise_cons.mpr hl⟩
      intro z hz
      rcases List.mem_cons.mp hz with rfl | hz'
      · omega
      · have := hl.1 z hz'
        omega

theorem pySortDesc_sorted (l : List (String × ℤ)) :
    (pySortDesc l).Pairwise (fun a b => b.2 ≤ a.2) := by
  induction l with
  | nil => simp [pySortDesc]
  | cons x xs ih =>
    rw [pySortDesc]
    exact insertDesc_sorted x ih

theorem insertDesc_filter_val (x : String × ℤ) (l : List (String × ℤ)) (v : ℤ) :
    (insertDesc x l).filter (fun e => e.2 = v) =
      if x.2 = v then x :: l.filter (fun e => e.2 = v)
      else l.filter (fun e => e.2 = v) := by
  induction l with
  | nil =>
    rw [insertDesc]
    by_cases hx : x.2 = v
    · simp [List.filter_cons, hx]
    · simp [List.filter_cons, hx]
  | cons y ys ih =>
    rw [insertDesc]
    by_cases h : x.2 < y.2
    · rw [if_pos h, List.filter_cons, ih]
      by_cases hx : x.2 = v
      · have hy : ¬(y.2 = v) := by omega
        simp [List.filter_cons, hx, hy]
      · by_cases hy : y.2 = v
        · simp [List.filter_cons, hx, hy]
        · simp [List.filter_cons, hx, hy]
    · rw [if_neg h]
      by_cases hx : x.2 = v
      · simp [List.filter_cons, hx]
      · simp [List.filter_cons, hx]

theorem pySortDesc_filter_val (l : List (String × ℤ)) (v : ℤ) :
    (pySortDesc l).filter (fun e => e.2 = v) = l.filter (fun e => e.2 = v) := by
  induction l with
  | nil => rfl
  | cons x xs ih =>
    rw [pySortDesc, insertDesc_filter_val]
    by_cases hx : x.2 = v
    · rw [if_pos hx, ih, List.filter_cons, if_pos (by simpa using hx)]
    · rw [if_neg hx, ih, List.filter_cons, if_neg (by simpa using hx)]

theorem roundHalfEven_nonneg {q : ℚ} (h : 0 ≤ q) : 0 ≤ roundHalfEven q := by
  have hf : 0 ≤ ⌊q⌋ := Int.floor_nonneg.mpr h
  rw [roundHalfEven]
  split_ifs <;> omega

theorem roundHalfEven_le_int {q : ℚ} {n : ℤ} (h : q ≤ (n : ℚ)) :
    roundHalfEven q ≤ n := by
  have hf : ⌊q⌋ ≤ n := by
    calc ⌊q⌋ ≤ ⌊(n : ℚ)⌋ := Int.floor_le_floor h
    _ = n := Int.floor_intCast n
  rw [roundHalfEven]
  split_ifs with h1 h2 h3
  · exact hf
  all_goals {
    have hq : (1:ℚ)/2 ≤ q - (⌊q⌋ : ℚ) := not_lt.mp h1
    have hlt : (⌊q⌋ : ℚ) < (n : ℚ) := by linarith
    have hn : ⌊q⌋ < n := by exact_mod_cast hlt
    omega }

theorem roundHalfEven_int_add_half (k : ℤ) :
    roundHalfEven ((k : ℚ) + 1/2) = if k % 2 = 0 then k else k + 1 := by
  have hhalf : ⌊(1/2 : ℚ)⌋ = 0 := by
    rw [Int.floor_eq_zero_iff]
    constructor <;> norm_num
  have hf : ⌊(k : ℚ) + 1/2⌋ = k := by
    rw [Int.floor_int_add, hhalf, add_zero]
  rw [roundHalfEven, hf]
  have hfrac : (k : ℚ) + 1/2 - (k : ℚ) = 1/2 := by ring
  rw [hfrac]
  norm_num

/-- Success case of `percent_to_graph`, characterised through `ℚ`:
when the percent is a valid float in `[0, 100]`, the guard passes and
the bar is `round(percent * total_chars / 100)` fills followed by
padding. -/
theorem percent_to_graph_ok {p : PyRat} (hden : 0 < p.den) (h0 : 0 ≤ p.toQ)
    (h100 : p.toQ ≤ 100) (w : ℤ) :
    percent_to_graph p w = Except.ok (String.mk
      (List.replicate (roundHalfEven (p.toQ * (w : ℚ) / 100)).toNat '=' ++
       List.replicate ((w - roundHalfEven (p.toQ * (w : ℚ) / 100)).toNat) ' ')) := by
  have hl1 : (PyRat.ofInt 0).leB p = true := by
    rw [PyRat.leB_iff (by norm_num) hden]
    simpa using h0
  have hl2 : p.leB (PyRat.ofInt 100) = true := by
    rw [PyRat.leB_iff hden (by norm_num)]
    simpa using h100
  have hdenm : 0 < ((p.mul (PyRat.ofInt w)).div (PyRat.ofInt 100)).den := by
    apply PyRat.den_div_pos
    · exact PyRat.den_mul_pos hden (by norm_num)
    · norm_num
  have hval : ((p.mul (PyRat.ofInt w)).div (PyRat.ofInt 100)).roundHE =
      roundHalfEven (p.toQ * (w : ℚ) / 100) := by
    rw [PyRat.roundHE_eq hdenm, PyRat.toQ_div, PyRat.toQ_mul, PyRat.toQ_ofInt,
      PyRat.toQ_ofInt]
    norm_num
  rw [percent_to_graph, if_neg (by simp [hl1, hl2]), hval]

/-!
Claim theorems.
-/

/-- C2: for every percent in [0,100] (an exact float value with positive
denominator) and every width `w ≥ 0`, `percent_to_graph` succeeds with a
string of length exactly `w` consisting only of `'='` and space
characters, in which the number of `'='` characters equals
`percent * w / 100` rounded to the nearest integer (Python rounding,
half to even), and all `'='` characters precede all spaces. -/
theorem c2_bar_render (p : PyRat) (w : ℤ) (hden : 0 < p.den) (h0 : 0 ≤ p.toQ)
    (h100 : p.toQ ≤ 100) (hw : 0 ≤ w) :
    ∃ s, percent_to_graph p w = Except.ok s ∧
      (s.toList.length : ℤ) = w ∧
      (∀ c ∈ s.toList, c = '=' ∨ c = ' ') ∧
      ((s.toList.count '=' : ℕ) : ℤ) = roundHalfEven (p.toQ * (w : ℚ) / 100) ∧
      ∃ a b : ℕ, s.toList = List.replicate a '=' ++ List.replicate b ' ' := by
  have hwq : (0 : ℚ) ≤ (w : ℚ) := by exact_mod_cast hw
  have hq0 : 0 ≤ p.toQ * (w : ℚ) / 100 :=
    div_nonneg (mul_nonneg h0 hwq) (by norm_num)
  have hqw : p.toQ * (w : ℚ) / 100 ≤ (w : ℚ) := by
    rw [div_le_iff₀ (by norm_num : (0:ℚ) < 100)]
    have := mul_le_mul_of_nonneg_right h100 hwq
    linarith
  have hr0 : 0 ≤ roundHalfEven (p.toQ * (w : ℚ) / 100) := roundHalfEven_nonneg hq0
  have hrw : roundHalfEven (p.toQ * (w : ℚ) / 100) ≤ w := roundHalfEven_le_int hqw
  refine ⟨_, percent_to_graph_ok hden h0 h100 w, ?_, ?_, ?_, ?_⟩
  · rw [stringToList_mk, List.length_append, List.length_replicate,
      List.length_replicate]
    omega
  · intro c hc
    simp only [stringToList_mk] at hc
    rcases List.mem_append.mp hc with h | h
    · exact Or.inl (List.eq_of_mem_replicate h)
    · exact Or.inr (List.eq_of_mem_replicate h)
  · rw [stringToList_mk, List.count_append, List.count_replicate_self,
      List.count_replicate, if_neg (by decide)]
    omega
  · exact ⟨_, _, rfl⟩

/-- C2 witness: concrete instance at percent 50, width 20. -/
theorem c2_bar_render_witness :
    0 < (PyRat.ofInt 50).den ∧ 0 ≤ (PyRat.ofInt 50).toQ ∧
      (PyRat.ofInt 50).toQ ≤ 100 ∧ (0 : ℤ) ≤ 20 ∧
      (∃ s, percent_to_graph (PyRat.ofInt 50) 20 = Except.ok s ∧
        (s.toList.length : ℤ) = 20 ∧
        (∀ c ∈ s.toList, c = '=' ∨ c = ' ') ∧
        ((s.toList.count '=' : ℕ) : ℤ) =
          roundHalfEven ((PyRat.ofInt 50).toQ * ((20 : ℤ) : ℚ) / 100) ∧
        ∃ a b : ℕ, s.toList = List.replicate a '=' ++ List.replicate b ' ') :=
  ⟨by decide, by rw [PyRat.toQ_ofInt]; norm_num, by rw [PyRat.toQ_ofInt]; norm_num,
    by decide,
    c2_bar_render (PyRat.ofInt 50) 20 (by decide)
      (by rw [PyRat.toQ_ofInt]; norm_num) (by rw [PyRat.toQ_ofInt]; norm_num)
      (by decide)⟩

/-- C8: for every width `w`, `percent_to_graph` raises `ValueError`
(the source's name for the spec's RangeError) exactly when the percent
lies outside [0, 100]; in particular it fails at percent -1 and at
percent 101. -/
theorem c8_range_check (p : PyRat) (w : ℤ) (hden : 0 < p.den) :
    (percent_to_graph p w = Except.error PyError.valueError ↔
      (p.toQ < 0 ∨ 100 < p.toQ)) ∧
    percent_to_graph (PyRat.ofInt (-1)) w = Except.error PyError.valueError ∧
    percent_to_graph (PyRat.ofInt 101) w = Except.error PyError.valueError := by
  refine ⟨⟨?_, ?_⟩, ?_, ?_⟩
  · intro h
    by_contra hc
    push_neg at hc
    have hok := percent_to_graph_ok hden hc.1 hc.2 w
    rw [hok] at h
    exact Except.noConfusion h
  · intro h
    rw [percent_to_graph, if_pos]
    rintro ⟨h1, h2⟩
    have h1' := (PyRat.leB_iff (by norm_num) hden).mp h1
    have h2' := (PyRat.leB_iff hden (by norm_num)).mp h2
    rw [PyRat.toQ_ofInt] at h1' h2'
    push_cast at h1' h2'
    rcases h with h | h
    · linarith
    · linarith
  · rw [percent_to_graph, if_pos]
    rintro ⟨h1, -⟩
    exact absurd h1 (by decide)
  · rw [percent_to_graph, if_pos]
    rintro ⟨-, h2⟩
    exact absurd h2 (by decide)

/-- C8 witness: concrete instance at percent 50. -/
theorem c8_range_check_witness :
    0 < (PyRat.ofInt 50).den ∧
      ((percent_to_graph (PyRat.ofInt 50) 20 = Except.error PyError.valueError ↔
        ((PyRat.ofInt 50).toQ < 0 ∨ 100 < (PyRat.ofInt 50).toQ)) ∧
      percent_to_graph (PyRat.ofInt (-1)) 20 = Except.error PyError.valueError ∧
      percent_to_graph (PyRat.ofInt 101) 20 = Except.error PyError.valueError) :=
  ⟨by decide, c8_range_check (PyRat.ofInt 50) 20 (by decide)⟩

/-- C10: when `percent * width / 100` is exactly halfway between two
integers `k` and `k + 1`, the bar renderer fills the nearest even
count of `'='` characters (Python `round` is round half to even); in
particular percent 12.5 at width 4 fills 0 and percent 37.5 at width 4
fills 2.  The floats 12.5 and 37.5 are the exact fractions 25/2 and
75/2. -/
theorem c10_round_half_even (p : PyRat) (w k : ℤ) (hden : 0 < p.den)
    (h0 : 0 ≤ p.toQ) (h100 : p.toQ ≤ 100) (hw : 0 ≤ w)
    (htie : p.toQ * (w : ℚ) / 100 = (k : ℚ) + 1/2) :
    (∃ s, percent_to_graph p w = Except.ok s ∧
      ((s.toList.count '=' : ℕ) : ℤ) % 2 = 0 ∧
      (((s.toList.count '=' : ℕ) : ℤ) = k ∨ ((s.toList.count '=' : ℕ) : ℤ) = k + 1)) ∧
    percent_to_graph ⟨25, 2⟩ 4 = Except.ok "    " ∧
    percent_to_graph ⟨75, 2⟩ 4 = Except.ok "==  " := by
  have hwq : (0 : ℚ) ≤ (w : ℚ) := by exact_mod_cast hw
  have hq0 : 0 ≤ p.toQ * (w : ℚ) / 100 :=
    div_nonneg (mul_nonneg h0 hwq) (by norm_num)
  have hhalf : ⌊(1/2 : ℚ)⌋ = 0 := by
    rw [Int.floor_eq_zero_iff]
    constructor <;> norm_num
  have hk : 0 ≤ k := by
    have hfl : 0 ≤ ⌊p.toQ * (w : ℚ) / 100⌋ := Int.floor_nonneg.mpr hq0
    rw [htie, Int.floor_int_add, hhalf] at hfl
    omega
  have hcount : roundHalfEven (p.toQ * (w : ℚ) / 100) =
      if k % 2 = 0 then k else k + 1 := by
    rw [htie, roundHalfEven_int_add_half]
  refine ⟨⟨_, percent_to_graph_ok hden h0 h100 w, ?_, ?_⟩, rfl, rfl⟩
  · rw [stringToList_mk, List.count_append, List.count_replicate_self,
      List.count_replicate, if_neg (by decide), hcount]
    split_ifs <;> omega
  · rw [stringToList_mk, List.count_append, List.count_replicate_self,
      List.count_replicate, if_neg (by decide), hcount]
    split_ifs <;> omega

/-- C10 witness: concrete instance at percent 12.5, width 4, tie at
k = 0. -/
theorem c10_round_half_even_witness :
    0 < (⟨25, 2⟩ : PyRat).den ∧ 0 ≤ (⟨25, 2⟩ : PyRat).toQ ∧
      (⟨25, 2⟩ : PyRat).toQ ≤ 100 ∧ (0 : ℤ) ≤ 4 ∧
      (⟨25, 2⟩ : PyRat).toQ * ((4 : ℤ) : ℚ) / 100 = ((0 : ℤ) : ℚ) + 1/2 ∧
      ((∃ s, percent_to_graph ⟨25, 2⟩ 4 = Except.ok s ∧
        ((s.toList.count '=' : ℕ) : ℤ) % 2 = 0 ∧
        (((s.toList.count '=' : ℕ) : ℤ) = 0 ∨ ((s.toList.count '=' : ℕ) : ℤ) = 0 + 1)) ∧
      percent_to_graph ⟨25, 2⟩ 4 = Except.ok "    " ∧
      percent_to_graph ⟨75, 2⟩ 4 = Except.ok "==  ") :=
  ⟨by decide, by rw [PyRat.toQ]; norm_num, by rw [PyRat.toQ]; norm_num, by decide,
    by rw [PyRat.toQ]; norm_num,
    c10_round_half_even ⟨25, 2⟩ 4 0 (by decide) (by rw [PyRat.toQ]; norm_num)
      (by rw [PyRat.toQ]; norm_num) (by decide) (by rw [PyRat.toQ]; norm_num)⟩

/-- C4 counterexample: the option list `duim.py` passes to du contains
no byte-granularity flag, so the claim that the probe's arguments
request byte-granular sizes is false. -/
theorem c4_counterexample : ¬ requestsByteGranularity du_flags := by
  intro h
  rcases h with h | h | h | h <;> revert h <;> decide

/-- C4 amended: the probe invokes du with exactly
`['du', '-d', '1', location]` - depth 1 for the target and its immediate
children - but passes no byte-granularity flag, so the parsed sizes are
in du's default block units rather than bytes. -/
theorem c4_du_invocation (location : String) :
    du_args location = ["du", "-d", "1", location] ∧
    du_flags = ["-d", "1"] ∧
    ¬ requestsByteGranularity du_flags := by
  refine ⟨rfl, rfl, ?_⟩
  intro h
  rcases h with h | h | h | h <;> revert h <;> decide

/-- C3 counterexample: with exit code 1 (and well-formed captured
stdout) the pipeline still succeeds and builds a report, so a non-zero
du exit is not surfaced as a failure. -/
theorem c3_counterexample :
    exceptIsOk (run_report 1 "100\t/a/b\n200\t/a\n" "/a" false 20) = true := rfl

/-- C3 amended: `call_du_sub` never inspects the subprocess exit status
(or stderr), so the whole pipeline behaves identically for every exit
code: the report is always built from whatever standard output was
captured. -/
theorem c3_exit_code_ignored (exitCode exitCode' : ℤ) (stdout : String)
    (target : String) (human_readable : Bool) (bar_length : ℤ) :
    run_report exitCode stdout target human_readable bar_length =
      run_report exitCode' stdout target human_readable bar_length := rfl

/-- C1 counterexample: a snapshot with total size 0 and one non-total
entry makes the report builder raise `ZeroDivisionError` instead of
treating the percent as 0. -/
theorem c1_counterexample :
    print_directory_info [("/a", 0), ("/a/b", 0)] 0 "/a" false 20 =
      Except.error PyError.zeroDivisionError := rfl

/-- C1 amended: whenever the resolved total size is 0 and at least one
non-total entry exists, building the report raises `ZeroDivisionError`
at the first percentage computation (the percent is never treated
as 0); only a snapshot with no non-total entries avoids the division. -/
theorem c1_zero_total_raises (d : List (String × ℤ)) (t : String)
    (human_readable : Bool) (bar_length : ℤ)
    (h : report_entries d t ≠ []) :
    print_directory_info d 0 t human_readable bar_length =
      Except.error PyError.zeroDivisionError := by
  obtain ⟨e, rest, heq⟩ := List.exists_cons_of_ne_nil h
  simp [print_directory_info, heq, exceptMapM, render_entry, Except.bind, Bind.bind]

/-- C1 witness: concrete instance with a nonempty entry list. -/
theorem c1_zero_total_raises_witness :
    report_entries [("x", 1), ("y", 2)] "z" ≠ [] ∧
      print_directory_info [("x", 1), ("y", 2)] 0 "z" true 5 =
        Except.error PyError.zeroDivisionError :=
  ⟨by decide, c1_zero_total_raises [("x", 1), ("y", 2)] "z" true 5 (by decide)⟩

/-- C6: for every snapshot and total path, the entries the per-entry
report lines present are exactly the snapshot entries other than the
total-path ones (a permutation of them with none equal to the total
path), ordered by size descending, with ties keeping their original
encounter order (the filtered subsequence at each size value is
unchanged). -/
theorem c6_report_order (d : List (String × ℤ)) (t : String) :
    (report_entries d t).Perm (d.filter (fun e => e.1 ≠ t)) ∧
    (report_entries d t).Pairwise (fun a b => b.2 ≤ a.2) ∧
    (∀ v : ℤ, (report_entries d t).filter (fun e => e.2 = v) =
      (d.filter (fun e => e.1 ≠ t)).filter (fun e => e.2 = v)) ∧
    (∀ e ∈ report_entries d t, e.1 ≠ t) := by
  have swap : ∀ (l : List (String × ℤ)) (v : ℤ),
      (l.filter (fun e => e.1 ≠ t)).filter (fun e => e.2 = v) =
        (l.filter (fun e => e.2 = v)).filter (fun e => e.1 ≠ t) := by
    intro l v
    rw [List.filter_filter, List.filter_filter]
    apply List.filter_congr
    intro a _
    exact Bool.and_comm _ _
  refine ⟨?_, ?_, ?_, ?_⟩
  · exact List.Perm.filter _ (pySortDesc_perm d)
  · exact (pySortDesc_sorted d).filter _
  · intro v
    rw [report_entries, swap, pySortDesc_filter_val, ← swap]
  · intro e he
    rw [report_entries, List.mem_filter] at he
    exact of_decide_eq_true he.2

/-- C6 witness: concrete instance with a size tie. -/
theorem c6_report_order_witness :
    (report_entries [("/a", 200), ("/a/b", 100), ("/a/c", 100)] "/a").Perm
      (([("/a", 200), ("/a/b", 100), ("/a/c", 100)] :
        List (String × ℤ)).filter (fun e => e.1 ≠ "/a")) ∧
    (report_entries [("/a", 200), ("/a/b", 100), ("/a/c", 100)] "/a").Pairwise
      (fun a b => b.2 ≤ a.2) ∧
    (∀ v : ℤ,
      (report_entries [("/a", 200), ("/a/b", 100), ("/a/c", 100)] "/a").filter
          (fun e => e.2 = v) =
        (([("/a", 200), ("/a/b", 100), ("/a/c", 100)] :
          List (String × ℤ)).filter (fun e => e.1 ≠ "/a")).filter
          (fun e => e.2 = v)) ∧
    (∀ e ∈ report_entries [("/a", 200), ("/a/b", 100), ("/a/c", 100)] "/a",
      e.1 ≠ "/a") :=
  c6_report_order [("/a", 200), ("/a/b", 100), ("/a/c", 100)] "/a"

/-- Invariant of the division loop of `human_readable_size`: starting
at index `i ≤ 5` with enough fuel, the loop performs some `k` further
divisions by 1024, stopping exactly when the value drops below 1024 or
the unit index reaches 5 (the last unit, P), and every performed
division happened while the value was at least 1024. -/
theorem hrLoopAux_spec (fuel : ℕ) :
    ∀ (q : PyRat) (i : ℕ), 0 < q.den → 0 ≤ q.toQ → i ≤ 5 → 5 ≤ fuel + i →
    ∃ (k : ℕ) (r : PyRat), hrLoopAux fuel q i = (r, i + k) ∧
      i + k ≤ 5 ∧ 0 < r.den ∧ r.toQ = q.toQ / 1024 ^ k ∧
      (i + k = 5 ∨ r.toQ < 1024) ∧
      (∀ j < k, 1024 ≤ q.toQ / 1024 ^ j) := by
  induction fuel with
  | zero =>
    intro q i hden hq hi hfi
    have h5 : i = 5 := by omega
    refine ⟨0, q, by simp [hrLoopAux], by omega, hden, by simp, Or.inl (by omega),
      by omega⟩
  | succ fuel ih =>
    intro q i hden hq hi hfi
    rw [hrLoopAux]
    by_cases hcond : ((PyRat.ofInt 1024).leB q = true) ∧ i < 5
    · rw [if_pos hcond]
      have hge : (1024 : ℚ) ≤ q.toQ := by
        have h := (PyRat.leB_iff (by norm_num) hden).mp hcond.1
        rw [PyRat.toQ_ofInt] at h
        exact_mod_cast h
      have hden' : 0 < (q.div (PyRat.ofInt 1024)).den :=
        PyRat.den_div_pos hden (by norm_num)
      have htoQ' : (q.div (PyRat.ofInt 1024)).toQ = q.toQ / 1024 := by
        rw [PyRat.toQ_div, PyRat.toQ_ofInt]
        norm_num
      have hq' : 0 ≤ (q.div (PyRat.ofInt 1024)).toQ := by
        rw [htoQ']
        exact div_nonneg hq (by norm_num)
      obtain ⟨k, r, heq, hk5, hrden, hrtoQ, hstop, hwhile⟩ :=
        ih (q.div (PyRat.ofInt 1024)) (i + 1) hden' hq' (by omega) (by omega)
      have hadd : i + 1 + k = i + (k + 1) := by omega
      rw [hadd] at heq hk5 hstop
      refine ⟨k + 1, r, heq, hk5, hrden, ?_, hstop, ?_⟩
      · rw [hrtoQ, htoQ', div_div, ← pow_succ']
      · intro j hj
        cases j with
        | zero => simpa using hge
        | succ j' =>
          have h := hwhile j' (by omega)
          rw [htoQ', div_div, ← pow_succ'] at h
          exact h
    · rw [if_neg hcond]
      refine ⟨0, q, by simp, by omega, hden, by simp, ?_, by omega⟩
      by_cases hi5 : i = 5
      · exact Or.inl (by omega)
      · right
        have hnle : ¬((PyRat.ofInt 1024).leB q = true) := fun hle => hcond ⟨hle, by omega⟩
        rw [PyRat.leB_iff (by norm_num) hden, PyRat.toQ_ofInt] at hnle
        have := not_le.mp hnle
        exact_mod_cast this

/-- C5: for every nonnegative integer `b`, `human_readable_size b`
divides by 1024 exactly `k` times where each division happened with the
value still at least 1024 and the loop stops when the value is below
1024 or the last unit P (index 5) is reached regardless of magnitude;
the output is the scaled value rendered with exactly one fractional
digit (Python rounding of `value * 10`), a space and the unit letter
taken in order from B, K, M, G, T, P; in particular
`human_readable_size 0 = "0.0 B"` and
`human_readable_size 11075584 = "10.6 M"`. -/
theorem c5_human_readable (b : ℕ) :
    (∃ k : ℕ, k ≤ 5 ∧
      (k = 5 ∨ (b : ℚ) / 1024 ^ k < 1024) ∧
      (∀ j < k, 1024 ≤ (b : ℚ) / 1024 ^ j) ∧
      0 ≤ roundHalfEven ((b : ℚ) / 1024 ^ k * 10) ∧
      human_readable_size (b : ℤ) =
        toString (roundHalfEven ((b : ℚ) / 1024 ^ k * 10) / 10) ++ "." ++
        toString (roundHalfEven ((b : ℚ) / 1024 ^ k * 10) % 10) ++ " " ++
        duUnits.getD k "") ∧
    duUnits = ["B", "K", "M", "G", "T", "P"] ∧
    human_readable_size 0 = "0.0 B" ∧
    human_readable_size 1024 = "1.0 K" ∧
    human_readable_size 11075584 = "10.6 M" := by
  refine ⟨?_, rfl, rfl, rfl, rfl⟩
  have hcast : (((b : ℤ) : ℚ)) = (b : ℚ) := by push_cast; ring
  have hden : 0 < (PyRat.ofInt (b : ℤ)).den := by norm_num
  have hq : 0 ≤ (PyRat.ofInt (b : ℤ)).toQ := by
    rw [PyRat.toQ_ofInt, hcast]
    positivity
  obtain ⟨k, r, heq, hk5, hrden, hrtoQ, hstop, hwhile⟩ :=
    hrLoopAux_spec 5 (PyRat.ofInt (b : ℤ)) 0 hden hq (by omega) (by omega)
  rw [PyRat.toQ_ofInt, hcast] at hrtoQ
  simp only [PyRat.toQ_ofInt, hcast] at hwhile
  have hr0 : 0 ≤ r.toQ := by
    rw [hrtoQ]
    positivity
  have hrnum : 0 ≤ r.num := by
    by_contra hneg
    push_neg at hneg
    have : r.toQ < 0 := by
      rw [PyRat.toQ]
      apply div_neg_of_neg_of_pos
      · exact_mod_cast hneg
      · exact_mod_cast hrden
    linarith
  have hmden : 0 < (r.mul (PyRat.ofInt 10)).den :=
    PyRat.den_mul_pos hrden (by norm_num)
  have hn : (r.mul (PyRat.ofInt 10)).roundHE =
      roundHalfEven ((b : ℚ) / 1024 ^ k * 10) := by
    rw [PyRat.roundHE_eq hmden, PyRat.toQ_mul, PyRat.toQ_ofInt, hrtoQ]
    norm_num
  refine ⟨k, by omega, ?_, ?_, ?_, ?_⟩
  · rcases hstop with h5 | hlt
    · exact Or.inl (by omega)
    · exact Or.inr (by rwa [hrtoQ] at hlt)
  · intro j hj
    exact hwhile j hj
  · rw [← hn]
    rw [PyRat.roundHE_eq hmden, PyRat.toQ_mul, PyRat.toQ_ofInt]
    apply roundHalfEven_nonneg
    have h10 : (0:ℚ) ≤ ((10:ℤ):ℚ) := by norm_num
    exact mul_nonneg hr0 h10
  · simp only [human_readable_size, heq]
    rw [pyFormatOneDec, if_neg (not_lt.mpr hrnum), pyFormatOneDecNN, hn]
    simp

/-- Parse-failure propagation in the dictionary-building loop: if any
line has at least two whitespace tokens and a first token that
Python `int` rejects, the whole call raises `ValueError`, whatever was
accumulated before. -/
theorem create_dir_dict_aux_err (alist : List String) :
    ∀ d : List (String × ℤ),
    (∃ line ∈ alist, 2 ≤ (pySplit line).length ∧
      pyIntParse ((pySplit line).headD "") = none) →
    create_dir_dict_aux d alist = Except.error PyError.valueError := by
  induction alist with
  | nil =>
    intro d h
    simp at h
  | cons line rest ih =>
    intro d h
    obtain ⟨l, hl, hlen, hparse⟩ := h
    simp only [create_dir_dict_aux]
    rcases List.mem_cons.mp hl with rfl | hmem
    · rw [if_neg (by omega)]
      rw [hparse]
    · by_cases hlt : (pySplit line).length < 2
      · rw [if_pos hlt]
        exact ih d ⟨l, hmem, hlen, hparse⟩
      · rw [if_neg hlt]
        cases hp : pyIntParse ((pySplit line).headD "") with
        | none => rfl
        | some size => exact ih _ ⟨l, hmem, hlen, hparse⟩

/-- C7: for every input line sequence containing a line with at least
two whitespace tokens whose first token is not numeric, the parser
fails with the fatal `ValueError` (the ParseError of the spec) that
aborts the invocation, rather than skipping the line or the field. -/
theorem c7_parse_error (alist : List String)
    (h : ∃ line ∈ alist, 2 ≤ (pySplit line).length ∧
      pyIntParse ((pySplit line).headD "") = none) :
    create_dir_dict alist = Except.error PyError.valueError :=
  create_dir_dict_aux_err alist [] h

/-- C7 witness: a well-formed line followed by a corrupted one. -/
theorem c7_parse_error_witness :
    (∃ line ∈ ["100 /a", "abc /x"], 2 ≤ (pySplit line).length ∧
      pyIntParse ((pySplit line).headD "") = none) ∧
    create_dir_dict ["100 /a", "abc /x"] = Except.error PyError.valueError :=
  ⟨by decide, c7_parse_error ["100 /a", "abc /x"] (by decide)⟩

theorem pyDictInsert_mem {d : List (String × ℤ)} {k : String} {v : ℤ}
    {e : String × ℤ} (h : e ∈ pyDictInsert d k v) : e ∈ d ∨ e = (k, v) := by
  rw [pyDictInsert] at h
  split_ifs at h with hk
  · obtain ⟨x, hx, hxe⟩ := List.mem_map.mp h
    by_cases hxk : x.1 = k
    · rw [if_pos hxk] at hxe
      exact Or.inr hxe.symm
    · rw [if_neg hxk] at hxe
      rw [← hxe]
      exact Or.inl hx
  · rcases List.mem_append.mp h with h1 | h1
    · exact Or.inl h1
    · right
      simpa using h1

/-- Every entry of the dictionary built by the parsing loop either was
already in the accumulator or originates verbatim from one of the
lines. -/
theorem create_dir_dict_aux_mem (alist : List String) :
    ∀ d res : List (String × ℤ),
    create_dir_dict_aux d alist = Except.ok res →
    ∀ e ∈ res, e ∈ d ∨ ∃ line ∈ alist, lineYields line e := by
  induction alist with
  | nil =>
    intro d res h e he
    simp only [create_dir_dict_aux, Except.ok.injEq] at h
    rw [h]
    exact Or.inl he
  | cons line rest ih =>
    intro d res h e he
    simp only [create_dir_dict_aux] at h
    by_cases hlt : (pySplit line).length < 2
    · rw [if_pos hlt] at h
      rcases ih d res h e he with h1 | ⟨l, hl, hy⟩
      · exact Or.inl h1
      · exact Or.inr ⟨l, List.mem_cons_of_mem _ hl, hy⟩
    · rw [if_neg hlt] at h
      cases hp : pyIntParse ((pySplit line).headD "") with
      | none =>
        rw [hp] at h
        exact absurd h (by simp)
      | some size =>
        rw [hp] at h
        rcases ih _ res h e he with h1 | ⟨l, hl, hy⟩
        · rcases pyDictInsert_mem h1 with h2 | h2
          · exact Or.inl h2
          · subst h2
            exact Or.inr ⟨line, List.mem_cons_self _ _, ⟨by omega, hp, rfl⟩⟩
        · exact Or.inr ⟨l, List.mem_cons_of_mem _ hl, hy⟩

/-- C9 counterexample: the size token `-5` parses as a negative integer
and enters the snapshot as the negative value -5, so negative sizes are
not rejected. -/
theorem c9_counterexample :
    create_dir_dict ["-5 /a"] = Except.ok [("/a", -5)] ∧ (-5 : ℤ) < 0 :=
  ⟨rfl, by norm_num⟩

/-- C9 amended: the parser performs no sign check: every entry of a
successfully built snapshot carries verbatim the integer its line's
first token parses to - negative tokens included - and only tokens that
fail integer parsing are fatal. -/
theorem c9_parsed_verbatim (alist : List String) (d : List (String × ℤ))
    (h : create_dir_dict alist = Except.ok d) :
    ∀ e ∈ d, ∃ line ∈ alist, lineYields line e := by
  intro e he
  rcases create_dir_dict_aux_mem alist [] d h e he with h1 | h1
  · simp at h1
  · exact h1

/-- C9 witness: concrete instance with a negative size. -/
theorem c9_parsed_verbatim_witness :
    create_dir_dict ["-5 /b"] = Except.ok [("/b", -5)] ∧
      ∀ e ∈ [(("/b" : String), (-5 : ℤ))], ∃ line ∈ ["-5 /b"], lineYields line e :=
  ⟨rfl, c9_parsed_verbatim ["-5 /b"] [("/b", -5)] rfl⟩
